import Mathlib

/-!
Shallow embedding of the molecular-dynamics program `md.c` (a C translation of
Bill Magro's FORTRAN90 MD code, by John Burkardt), together with theorems
settling the specification claims about it.

Conventions of the embedding:
* C `double` arithmetic is modelled by exact real arithmetic over `ℝ`;
  floating-point literals denote the exact rational value of the decimal
  written in the source.
* C `int` is modelled by `ℤ`; C integer division truncates toward zero, so it
  is `Int.tdiv`.
* Flat `double` buffers are modelled as total functions `ℕ → ℝ`; an in-place
  store `r[idx] = v` becomes `Function.update r idx v`.
* `for` loops become `List.foldl` over `List.range`, threading the mutated
  state; a fatal `exit(1)` becomes `Except.error 1` (the exit status).
-/

namespace MD

noncomputable section

/-! ## Deterministic uniform generator: `r8mat_uniform_ab` -/

/-- `const int i4_huge = 2147483647;` in `r8mat_uniform_ab`. -/
def i4_huge : ℤ := 2147483647

/-- One seed advance of `r8mat_uniform_ab`:
`k = *seed / 127773; *seed = 16807 * ( *seed - k * 127773 ) - k * 2836;
if ( *seed < 0 ) { *seed = *seed + i4_huge; }`
(C `/` on `int` truncates toward zero, hence `Int.tdiv`). -/
def seedStep (seed : ℤ) : ℤ :=
  let k := Int.tdiv seed 127773
  let s := 16807 * (seed - k * 127773) - k * 2836
  if s < 0 then s + i4_huge else s

/-- One draw of the generator: the seed advance followed by
`r[i+j*m] = a + ( b - a ) * ( double ) ( *seed ) * 4.656612875E-10;`.
Returns the drawn value and the updated seed. -/
def draw (a b : ℝ) (seed : ℤ) : ℝ × ℤ :=
  (a + (b - a) * ((seedStep seed : ℤ) : ℝ) * 4.656612875e-10, seedStep seed)

/-- `r8mat_uniform_ab ( int m, int n, double a, double b, int *seed, double r[] )`.
On a zero incoming seed the C code prints to `stderr` and calls `exit ( 1 )`,
modelled as `Except.error 1`; otherwise it fills `r[i+j*m]` for
`j = 0..n-1` (outer), `i = 0..m-1` (inner) with successive draws and returns
the filled buffer together with the final seed. -/
def r8mat_uniform_ab (m n : ℕ) (a b : ℝ) (seed : ℤ) (r : ℕ → ℝ) :
    Except ℕ ((ℕ → ℝ) × ℤ) :=
  if seed = 0 then
    Except.error 1
  else
    Except.ok ((List.range n).foldl (fun st j =>
      (List.range m).foldl (fun (st : (ℕ → ℝ) × ℤ) i =>
        (Function.update st.1 (i + j * m) (draw a b st.2).1, (draw a b st.2).2))
        st) (r, seed))

/-- Iterated seed advance: the seed value after `t` draws. -/
def seedIter (t : ℕ) (seed : ℤ) : ℤ := Nat.rec seed (fun _ s => seedStep s) t

/-! ## Arithmetic facts about the seed recursion -/

/-- `Int.tmod` is odd in its first argument. -/
lemma tmod_neg_left (a b : ℤ) : (-a).tmod b = -(a.tmod b) := by
  have h1 := Int.tdiv_add_tmod a b
  have h2 := Int.tdiv_add_tmod (-a) b
  rw [Int.neg_tdiv] at h2
  linarith

/-- The Schrage intermediate value stays strictly between `±(2^31 - 1)`
for a nonnegative input not exceeding `2^31`. -/
lemma schrage_bound_nonneg (a : ℤ) (h0 : 0 ≤ a) (h1 : a ≤ 2 ^ 31) :
    -2147483647 < 16807 * a.tmod 127773 - 2836 * a.tdiv 127773 ∧
      16807 * a.tmod 127773 - 2836 * a.tdiv 127773 < 2147483647 := by
  have hmod0 : 0 ≤ a.tmod 127773 := Int.tmod_nonneg _ h0
  have hmod1 : a.tmod 127773 < 127773 := Int.tmod_lt_of_pos a (by norm_num)
  have hdm := Int.tdiv_add_tmod a 127773
  have hq0 : 0 ≤ a.tdiv 127773 := by nlinarith [hdm, hmod0, hmod1]
  have hq1 : a.tdiv 127773 ≤ 16808 := by nlinarith [hdm, hmod0, hmod1]
  constructor <;> nlinarith [hmod0, hmod1, hq0, hq1]

/-- The Schrage intermediate value stays strictly between `±(2^31 - 1)`
for any 32-bit input. -/
lemma schrage_bound (a : ℤ) (h0 : -2 ^ 31 ≤ a) (h1 : a ≤ 2 ^ 31 - 1) :
    -2147483647 < 16807 * a.tmod 127773 - 2836 * a.tdiv 127773 ∧
      16807 * a.tmod 127773 - 2836 * a.tdiv 127773 < 2147483647 := by
  rcases le_or_lt 0 a with ha | ha
  · exact schrage_bound_nonneg a ha (by omega)
  · have h := schrage_bound_nonneg (-a) (by omega) (by omega)
    rw [tmod_neg_left, Int.neg_tdiv] at h
    constructor <;> nlinarith [h.1, h.2]

/-- The seed advance implements `seed' = 16807 * seed mod (2^31 - 1)`
(Euclidean remainder) for every 32-bit seed. -/
lemma seedStep_eq_emod (seed : ℤ) (h0 : -2 ^ 31 ≤ seed) (h1 : seed ≤ 2 ^ 31 - 1) :
    seedStep seed = (16807 * seed) % 2147483647 := by
  have hmod : seed - Int.tdiv seed 127773 * 127773 = seed.tmod 127773 := by
    have := Int.tdiv_add_tmod seed 127773
    linarith
  have hkey : 16807 * seed.tmod 127773 - Int.tdiv seed 127773 * 2836 =
      16807 * seed - 2147483647 * Int.tdiv seed 127773 := by
    rw [← hmod]
    ring
  have hs := schrage_bound seed h0 h1
  unfold seedStep i4_huge
  simp only []
  rw [hmod, hkey]
  have hsl : -2147483647 < 16807 * seed - 2147483647 * Int.tdiv seed 127773 := by
    have := hs.1
    omega
  have hsu : 16807 * seed - 2147483647 * Int.tdiv seed 127773 < 2147483647 := by
    have := hs.2
    omega
  omega

/-- The multiplier `16807` is coprime to the modulus `2^31 - 1`. -/
lemma coprime_16807 : IsCoprime (2147483647 : ℤ) 16807 := by
  rw [Int.isCoprime_iff_gcd_eq_one]
  norm_num

/-- A seed in `[1, 2^31 - 2]` advances to a seed in `[1, 2^31 - 2]`:
the zero-seed fatal branch is unreachable after the initial check. -/
lemma seedStep_mem (seed : ℤ) (h1 : 1 ≤ seed) (h2 : seed ≤ 2 ^ 31 - 2) :
    1 ≤ seedStep seed ∧ seedStep seed ≤ 2 ^ 31 - 2 := by
  have heq : seedStep seed = (16807 * seed) % 2147483647 :=
    seedStep_eq_emod seed (by omega) (by omega)
  have hnn : 0 ≤ (16807 * seed) % 2147483647 :=
    Int.emod_nonneg _ (by norm_num)
  have hlt : (16807 * seed) % 2147483647 < 2147483647 :=
    Int.emod_lt_of_pos _ (by norm_num)
  have hne : (16807 * seed) % 2147483647 ≠ 0 := by
    intro h
    have hdvd : (2147483647 : ℤ) ∣ 16807 * seed := Int.dvd_of_emod_eq_zero h
    have hdvd2 : (2147483647 : ℤ) ∣ seed := coprime_16807.dvd_of_dvd_mul_left hdvd
    have := Int.le_of_dvd (by omega) hdvd2
    omega
  omega

/-! ## Generic loop lemmas -/

/-- Summation loops: a `foldl` that adds `g i` for `i = 0..n-1`. -/
lemma foldl_add_eq (g : ℕ → ℝ) (n : ℕ) (init : ℝ) :
    (List.range n).foldl (fun s i => s + g i) init = init + ∑ i ∈ Finset.range n, g i := by
  induction n with
  | zero => simp
  | succ n ih =>
    rw [List.range_succ, List.foldl_append, ih, Finset.sum_range_succ]
    simp [add_assoc]

/-- Two folds with pointwise-equal step functions agree. -/
lemma foldl_fun_congr {α : Type} (l : List ℕ) (f g : α → ℕ → α) (a : α)
    (h : ∀ b x, f b x = g b x) : l.foldl f a = l.foldl g a := by
  have : f = g := funext fun b => funext fun x => h b x
  rw [this]

/-- A loop writing slots `c, c+1, …, c+n-1` once each, each new value a
function `h i` of the old value at that slot, evaluated at an arbitrary
index. -/
lemma blockFold_apply (h : ℕ → ℝ → ℝ) (c n : ℕ) (g : ℕ → ℝ) (idx : ℕ) :
    ((List.range n).foldl (fun g i => Function.update g (i + c) (h i (g (i + c)))) g) idx =
      if c ≤ idx ∧ idx < c + n then h (idx - c) (g idx) else g idx := by
  induction n generalizing idx with
  | zero =>
    rw [if_neg (by omega)]
    rfl
  | succ n ih =>
    rw [List.range_succ, List.foldl_append]
    simp only [List.foldl_cons, List.foldl_nil]
    rw [Function.update_apply]
    by_cases hidx : idx = n + c
    · have hn : ((List.range n).foldl
          (fun g i => Function.update g (i + c) (h i (g (i + c)))) g) (n + c) = g (n + c) := by
        rw [ih]
        rw [if_neg (by omega)]
      rw [if_pos hidx, hn, if_pos (by omega), hidx]
      congr 1
      omega
    · rw [if_neg hidx, ih]
      by_cases hin : c ≤ idx ∧ idx < c + n
      · rw [if_pos hin, if_pos (by omega)]
      · rw [if_neg hin, if_neg (by omega)]

/-- Flattening the program's standard double loop
(`j` outer over `np`, `i` inner over `nd`, slot `i + j*nd`) into a single
fold over the flat index range. -/
lemma double_fold_flatten {α : Type} (F : α → ℕ → α) (np nd : ℕ) (a : α) :
    (List.range np).foldl
        (fun s j => (List.range nd).foldl (fun s i => F s (i + j * nd)) s) a =
      (List.range (np * nd)).foldl F a := by
  induction np with
  | zero => simp
  | succ np ih =>
    rw [List.range_succ, List.foldl_append, ih]
    simp only [List.foldl_cons, List.foldl_nil]
    rw [Nat.succ_mul, List.range_add, List.foldl_append, List.foldl_map]
    exact foldl_fun_congr _ _ _ _ fun b x => by rw [Nat.add_comm]

/-! ## Characterization of the generator fill loop -/

/-- The flattened body of `r8mat_uniform_ab`'s fill loop. -/
def fillBody (a b : ℝ) (st : (ℕ → ℝ) × ℤ) (idx : ℕ) : (ℕ → ℝ) × ℤ :=
  (Function.update st.1 idx (draw a b st.2).1, (draw a b st.2).2)

lemma fillBody_fst (a b : ℝ) (st : (ℕ → ℝ) × ℤ) (idx : ℕ) :
    (fillBody a b st idx).1 = Function.update st.1 idx (draw a b st.2).1 := rfl

lemma fillBody_snd (a b : ℝ) (st : (ℕ → ℝ) × ℤ) (idx : ℕ) :
    (fillBody a b st idx).2 = seedStep st.2 := rfl

lemma draw_fst (a b : ℝ) (s : ℤ) :
    (draw a b s).1 = a + (b - a) * ((seedStep s : ℤ) : ℝ) * 4.656612875e-10 := rfl

lemma seedIter_zero (s : ℤ) : seedIter 0 s = s := rfl

lemma seedIter_succ (t : ℕ) (s : ℤ) : seedIter (t + 1) s = seedStep (seedIter t s) := rfl

lemma fillFold_spec (a b : ℝ) (seed0 : ℤ) (r0 : ℕ → ℝ) (t : ℕ) :
    ((List.range t).foldl (fillBody a b) (r0, seed0)).2 = seedIter t seed0 ∧
      ∀ idx, ((List.range t).foldl (fillBody a b) (r0, seed0)).1 idx =
        if idx < t then
          a + (b - a) * ((seedIter (idx + 1) seed0 : ℤ) : ℝ) * 4.656612875e-10
        else r0 idx := by
  induction t with
  | zero =>
    refine ⟨rfl, fun idx => ?_⟩
    rw [if_neg (by omega)]
    rfl
  | succ t ih =>
    rw [List.range_succ, List.foldl_append]
    simp only [List.foldl_cons, List.foldl_nil]
    constructor
    · rw [fillBody_snd, ih.1, seedIter_succ]
    · intro idx
      rw [fillBody_fst, Function.update_apply]
      by_cases hidx : idx = t
      · rw [if_pos hidx, draw_fst, ih.1, if_pos (by omega), hidx, seedIter_succ]
      · rw [if_neg hidx, ih.2 idx]
        by_cases hlt : idx < t
        · rw [if_pos hlt, if_pos (by omega)]
        · rw [if_neg hlt, if_neg (by omega)]

/-- The generator's double loop, flattened and characterized: slot `idx` of
the output holds the `(idx+1)`-st draw of the seed recursion, in the fixed
traversal order (all rows of one column before the next). -/
lemma r8mat_uniform_ab_spec (m n : ℕ) (a b : ℝ) (seed : ℤ) (r0 : ℕ → ℝ)
    (hseed : seed ≠ 0) :
    r8mat_uniform_ab m n a b seed r0 =
      Except.ok ((List.range (n * m)).foldl (fillBody a b) (r0, seed)) := by
  rw [r8mat_uniform_ab, if_neg hseed]
  congr 1
  rw [← double_fold_flatten (fillBody a b) n m (r0, seed)]
  rfl

/-! ## Claim theorems for the generator -/

/-- C4 (counterexample to the claim as stated): at seed 1 with bounds
`lower = 0 < 1 = upper`, the drawn value is *not*
`lower + (upper - lower) * seed' * (1 / (2^31 - 1))`: the code multiplies by
the literal constant `4.656612875E-10`, which differs from `1 / (2^31 - 1)`
in exact real arithmetic. -/
theorem claim_C4_counterexample :
    (draw 0 1 1).1 ≠ 0 + (1 - 0) * (((draw 0 1 1).2 : ℤ) : ℝ) * (1 / (2 ^ 31 - 1)) := by
  have hs : seedStep 1 = 16807 := by decide
  have h1 : (draw 0 1 1).1 = 0 + (1 - 0) * ((16807 : ℤ) : ℝ) * 4.656612875e-10 := by
    rw [draw_fst, hs]
  have h2 : ((draw 0 1 1).2 : ℤ) = 16807 := hs
  rw [h1, h2]
  norm_num

/-- C4 (amended): for every nonzero 32-bit seed and bounds `a < b`, one draw
advances the seed to exactly `16807 * seed mod (2^31 - 1)` via the Schrage
decomposition, and returns
`a + (b - a) * seed' * 4.656612875E-10` (the source's literal decimal
approximation of `1 / (2^31 - 1)`). -/
theorem claim_C4_draw (a b : ℝ) (seed : ℤ) (hl : -2 ^ 31 ≤ seed)
    (hu : seed ≤ 2 ^ 31 - 1) (_hne : seed ≠ 0) (_hab : a < b) :
    (draw a b seed).2 = (16807 * seed) % 2147483647 ∧
      (draw a b seed).1 =
        a + (b - a) * (((16807 * seed) % 2147483647 : ℤ) : ℝ) * 4.656612875e-10 := by
  have hs : seedStep seed = (16807 * seed) % 2147483647 := seedStep_eq_emod seed hl hu
  constructor
  · show seedStep seed = _
    exact hs
  · rw [draw_fst, hs]

/-- Witness for `claim_C4_draw` at `a = 0`, `b = 1`, `seed = 1`. -/
theorem claim_C4_draw_witness :
    (-2 ^ 31 ≤ (1 : ℤ)) ∧ ((1 : ℤ) ≤ 2 ^ 31 - 1) ∧ ((1 : ℤ) ≠ 0) ∧ ((0 : ℝ) < 1) ∧
      ((draw 0 1 1).2 = (16807 * 1) % 2147483647 ∧
        (draw 0 1 1).1 =
          0 + (1 - 0) * (((16807 * 1) % 2147483647 : ℤ) : ℝ) * 4.656612875e-10) :=
  ⟨by norm_num, by norm_num, by norm_num, by norm_num,
    claim_C4_draw 0 1 1 (by norm_num) (by norm_num) (by norm_num) (by norm_num)⟩

/-- C5: invoking the generator with seed exactly `0` reports the fatal
condition and terminates with exit status `1` (modelled as `Except.error 1`),
returning no filled buffer; for every nonzero seed the generator returns
normally, so no other error path exists. -/
theorem claim_C5_zero_seed_fatal (m n : ℕ) (a b : ℝ) (r0 : ℕ → ℝ) :
    r8mat_uniform_ab m n a b 0 r0 = Except.error 1 ∧
      ∀ seed : ℤ, seed ≠ 0 → ∃ out, r8mat_uniform_ab m n a b seed r0 = Except.ok out := by
  constructor
  · rw [r8mat_uniform_ab, if_pos rfl]
  · intro seed hseed
    exact ⟨_, by rw [r8mat_uniform_ab, if_neg hseed]⟩

/-- Witness for `claim_C5_zero_seed_fatal` at `m = n = 1`, bounds `0, 10`,
zero buffer, and nonzero seed `5`. -/
theorem claim_C5_zero_seed_fatal_witness :
    r8mat_uniform_ab 1 1 0 10 0 (fun _ => 0) = Except.error 1 ∧
      ∃ out, r8mat_uniform_ab 1 1 0 10 5 (fun _ => 0) = Except.ok out :=
  ⟨(claim_C5_zero_seed_fatal 1 1 0 10 (fun _ => 0)).1,
    (claim_C5_zero_seed_fatal 1 1 0 10 (fun _ => 0)).2 5 (by norm_num)⟩

/-- C7: the generator is deterministic and fills the buffer in the fixed
traversal order (all rows of one column before the next): two invocations
with the same nonzero seed, the same bounds and the same total count
`K = n·m` produce identical results, and slot `idx` of the output holds
exactly the `(idx+1)`-st value of the seed recursion, scaled into `[a, b)`. -/
theorem claim_C7_determinism (m n m2 n2 : ℕ) (a b : ℝ) (seed : ℤ) (r0 : ℕ → ℝ)
    (hseed : seed ≠ 0) (hK : n * m = n2 * m2) :
    r8mat_uniform_ab m n a b seed r0 = r8mat_uniform_ab m2 n2 a b seed r0 ∧
      ∀ out, r8mat_uniform_ab m n a b seed r0 = Except.ok out →
        ∀ idx < n * m, out.1 idx =
          a + (b - a) * ((seedIter (idx + 1) seed : ℤ) : ℝ) * 4.656612875e-10 := by
  constructor
  · rw [r8mat_uniform_ab_spec m n a b seed r0 hseed,
      r8mat_uniform_ab_spec m2 n2 a b seed r0 hseed, hK]
  · intro out hout idx hidx
    rw [r8mat_uniform_ab_spec m n a b seed r0 hseed] at hout
    have hout2 : (List.range (n * m)).foldl (fillBody a b) (r0, seed) = out :=
      (Except.ok.injEq _ _).mp hout
    rw [← hout2, (fillFold_spec a b seed r0 (n * m)).2 idx, if_pos hidx]

/-- Witness for `claim_C7_determinism`: a `2×1` and a `1×2` fill with seed 1
agree, and slot 0 holds the first draw. -/
theorem claim_C7_determinism_witness :
    ((1 : ℤ) ≠ 0) ∧ (1 * 2 = 2 * 1) ∧
      (r8mat_uniform_ab 2 1 0 1 1 (fun _ => 0) = r8mat_uniform_ab 1 2 0 1 1 (fun _ => 0) ∧
        ∀ out, r8mat_uniform_ab 2 1 0 1 1 (fun _ => 0) = Except.ok out →
          ∀ idx < 1 * 2, out.1 idx =
            0 + (1 - 0) * ((seedIter (idx + 1) 1 : ℤ) : ℝ) * 4.656612875e-10) :=
  ⟨by norm_num, by norm_num,
    claim_C7_determinism 2 1 1 2 0 1 1 (fun _ => 0) (by norm_num) (by norm_num)⟩

/-- C8: a seed in `[1, 2^31 - 2]` advances, through the Schrage decomposition
with the conditional add of `2^31 - 1`, to a seed again in `[1, 2^31 - 2]`;
in particular it is never `0`, so the fatal zero-seed branch is unreachable
on every draw after the initial check passes. -/
theorem claim_C8_seed_invariant (seed : ℤ) (h1 : 1 ≤ seed) (h2 : seed ≤ 2 ^ 31 - 2) :
    1 ≤ seedStep seed ∧ seedStep seed ≤ 2 ^ 31 - 2 ∧ seedStep seed ≠ 0 := by
  have h := seedStep_mem seed h1 h2
  exact ⟨h.1, h.2, by omega⟩

/-- Witness for `claim_C8_seed_invariant` at the program's initial seed. -/
theorem claim_C8_seed_invariant_witness :
    (1 ≤ (123456789 : ℤ)) ∧ ((123456789 : ℤ) ≤ 2 ^ 31 - 2) ∧
      (1 ≤ seedStep 123456789 ∧ seedStep 123456789 ≤ 2 ^ 31 - 2 ∧ seedStep 123456789 ≠ 0) :=
  ⟨by norm_num, by norm_num,
    claim_C8_seed_invariant 123456789 (by norm_num) (by norm_num)⟩

/-! ## Pairwise displacement: `dist` -/

/-- `dist ( int nd, double r1[], double r2[], double dr[] )`: writes the
displacement `dr[i] = r1[i] - r2[i]`, accumulates `d += dr[i]*dr[i]`, and
returns `sqrt(d)`.  The output buffer is modelled as the displacement
function, the norm as the fold of the accumulation loop. -/
def dist (nd : ℕ) (r1 r2 : ℕ → ℝ) : (ℕ → ℝ) × ℝ :=
  (fun i => r1 i - r2 i,
    Real.sqrt ((List.range nd).foldl (fun d i => d + (r1 i - r2 i) * (r1 i - r2 i)) 0))

lemma dist_fst (nd : ℕ) (r1 r2 : ℕ → ℝ) (i : ℕ) :
    (dist nd r1 r2).1 i = r1 i - r2 i := rfl

lemma dist_snd (nd : ℕ) (r1 r2 : ℕ → ℝ) :
    (dist nd r1 r2).2 = Real.sqrt (∑ i ∈ Finset.range nd, (r1 i - r2 i) ^ 2) := by
  show Real.sqrt _ = _
  rw [foldl_add_eq (fun i => (r1 i - r2 i) * (r1 i - r2 i)) nd 0, zero_add]
  congr 1
  exact Finset.sum_congr rfl fun i _ => (sq (r1 i - r2 i)).symm

/-- The scratch buffer in `compute` is declared `double rij[3]`. -/
def rijSize : ℕ := 3

/-- Bounds-checked variant of `dist`, modelling the writes into the 3-slot
buffer `rij`: a write at an index `≥ rijSize` is out of bounds and yields
`none`. -/
def distChecked (nd : ℕ) (r1 r2 : ℕ → ℝ) : Option ((ℕ → ℝ) × ℝ) :=
  ((List.range nd).foldl (fun acc i =>
      acc.bind fun st =>
        if i < rijSize then
          some (Function.update st.1 i (r1 i - r2 i), st.2 + (r1 i - r2 i) * (r1 i - r2 i))
        else none)
    (some (fun _ => 0, 0))).map fun st => (st.1, Real.sqrt st.2)

lemma foldl_bind_none {α : Type} (g : ℕ → α → Option α) (l : List ℕ) :
    l.foldl (fun acc i => acc.bind (g i)) none = none := by
  induction l with
  | nil => rfl
  | cons x xs ih => simpa using ih

/-! ## Claim theorem C9 -/

/-- C9: every write into the 3-slot scratch buffer `rij` performed by `dist`
is in bounds exactly when the spatial dimension is at most 3; in particular
for `1 ≤ nd ≤ 3` the out-of-bounds branch is unreachable, even though the
spec's data-model invariant only requires `nd ≥ 1`. -/
theorem claim_C9_rij_bounds (nd : ℕ) (r1 r2 : ℕ → ℝ) :
    (1 ≤ nd → nd ≤ 3 → (distChecked nd r1 r2).isSome = true) ∧
      ((distChecked nd r1 r2).isSome = true ↔ nd ≤ 3) := by
  have hiff : (distChecked nd r1 r2).isSome = true ↔ nd ≤ 3 := by
    constructor
    · intro hsome
      by_contra hnd
      obtain ⟨t, rfl⟩ : ∃ t, nd = 4 + t := ⟨nd - 4, by omega⟩
      rw [distChecked, List.range_add, List.foldl_append] at hsome
      have h4 : (List.range 4).foldl (fun acc i =>
          acc.bind fun st : (ℕ → ℝ) × ℝ =>
            if i < rijSize then
              some (Function.update st.1 i (r1 i - r2 i),
                st.2 + (r1 i - r2 i) * (r1 i - r2 i))
            else none)
          (some (fun _ => 0, 0)) = none := by
        have hr : List.range 4 = [0, 1, 2, 3] := rfl
        rw [hr]
        simp [rijSize]
      rw [h4, foldl_bind_none] at hsome
      simp at hsome
    · intro hnd
      interval_cases nd <;> simp [distChecked, List.range_succ, rijSize]
  exact ⟨fun _ _h3 => hiff.mpr _h3, hiff⟩

/-- Witness for `claim_C9_rij_bounds` at the program's dimension `nd = 3`. -/
theorem claim_C9_rij_bounds_witness :
    (1 ≤ 3 ∧ 3 ≤ 3 ∧ (distChecked 3 (fun _ => 1) (fun _ => 0)).isSome = true) ∧
      ¬(distChecked 4 (fun _ => 1) (fun _ => 0)).isSome = true :=
  ⟨⟨by norm_num, by norm_num,
      (claim_C9_rij_bounds 3 (fun _ => 1) (fun _ => 0)).1 (by norm_num) (by norm_num)⟩,
    fun h => by
      have := ((claim_C9_rij_bounds 4 (fun _ => 1) (fun _ => 0)).2).mp h
      omega⟩

/-! ## Force and energy evaluator: `compute` -/

/-- `double PI2 = 3.141592653589793 / 2.0;` — the saturation clamp constant
of `compute` (the exact value of the decimal literal, which is the `double`
approximation of π, halved). -/
def PI2 : ℝ := 3.141592653589793 / 2.0

/-- The clamp in `compute`:
`if ( d < PI2 ) { d2 = d; } else { d2 = PI2; }`. -/
def d2fun (d : ℝ) : ℝ := if d < PI2 then d else PI2

lemma d2fun_eq_min (d : ℝ) : d2fun d = min d PI2 := by
  rw [d2fun]
  by_cases h : d < PI2
  · rw [if_pos h, min_eq_left h.le]
  · rw [if_neg h, min_eq_right (not_lt.mp h)]

/-- Body of the inner `j` loop of `compute` for particle `k`: skip `j = k`;
otherwise evaluate `dist` on the particle blocks `pos+k*nd`, `pos+j*nd`,
accumulate `pe += 0.5 * pow(sin(d2), 2)`, and run the force loop
`f[i+k*nd] -= rij[i] * sin(2*d2) / d` for `i < nd` (clamped `d2` in the
trigonometric factors, unclamped `d` in the denominator).
State is the pair (force field, potential accumulator). -/
def innerBody (nd k : ℕ) (pos : ℕ → ℝ) (fp : (ℕ → ℝ) × ℝ) (j : ℕ) : (ℕ → ℝ) × ℝ :=
  if k ≠ j then
    ((List.range nd).foldl (fun g i => Function.update g (i + k * nd)
        (g (i + k * nd) -
          (dist nd (fun i => pos (i + k * nd)) (fun i => pos (i + j * nd))).1 i *
            Real.sin (2 * d2fun
              ((dist nd (fun i => pos (i + k * nd)) (fun i => pos (i + j * nd))).2)) /
            (dist nd (fun i => pos (i + k * nd)) (fun i => pos (i + j * nd))).2)) fp.1,
      fp.2 + 0.5 *
        Real.sin (d2fun
          ((dist nd (fun i => pos (i + k * nd)) (fun i => pos (i + j * nd))).2)) ^ 2)
  else fp

/-- Body of the outer `k` loop of `compute`: zero particle `k`'s force block,
run the inner `j` loop, then accumulate `ki += vel[i+k*nd]^2` for `i < nd`.
State is (force field, potential accumulator, kinetic accumulator). -/
def outerBody (np nd : ℕ) (pos vel : ℕ → ℝ) (st : (ℕ → ℝ) × ℝ × ℝ) (k : ℕ) :
    (ℕ → ℝ) × ℝ × ℝ :=
  (((List.range np).foldl (innerBody nd k pos)
      ((List.range nd).foldl (fun g i => Function.update g (i + k * nd) 0) st.1, st.2.1)).1,
    ((List.range np).foldl (innerBody nd k pos)
      ((List.range nd).foldl (fun g i => Function.update g (i + k * nd) 0) st.1, st.2.1)).2,
    (List.range nd).foldl (fun s i => s + vel (i + k * nd) * vel (i + k * nd)) st.2.2)

/-- `compute ( int np, int nd, double pos[], double vel[], double mass,
double f[], double *pot, double *kin )`: `pe = 0; ki = 0;` then the double
loop, then `ki = ki * 0.5 * mass`.  `f0` is the incoming contents of the
force buffer. -/
def compute (np nd : ℕ) (pos vel : ℕ → ℝ) (mass : ℝ) (f0 : ℕ → ℝ) :
    (ℕ → ℝ) × ℝ × ℝ :=
  (((List.range np).foldl (outerBody np nd pos vel) (f0, 0, 0)).1,
    ((List.range np).foldl (outerBody np nd pos vel) (f0, 0, 0)).2.1,
    ((List.range np).foldl (outerBody np nd pos vel) (f0, 0, 0)).2.2 * 0.5 * mass)

/-! ## Reference (spec-worded) definitions for the evaluator

These definitions follow the words of the specification claims — the
unconditional double-loop reference — and are proved equal to `compute`. -/

/-- Displacement of particle `k` from particle `j` in dimension `i`. -/
def drRef (nd : ℕ) (pos : ℕ → ℝ) (k j i : ℕ) : ℝ :=
  pos (i + k * nd) - pos (i + j * nd)

/-- Euclidean distance between particles `k` and `j`. -/
def dRef (nd : ℕ) (pos : ℕ → ℝ) (k j : ℕ) : ℝ :=
  Real.sqrt (∑ i ∈ Finset.range nd, drRef nd pos k j i ^ 2)

/-- The distance clamped to the saturation constant, used only in the
trigonometric terms. -/
def d2Ref (nd : ℕ) (pos : ℕ → ℝ) (k j : ℕ) : ℝ := min (dRef nd pos k j) PI2

/-- Per-dimension force contribution of particle `j` on particle `k`:
`-dr[i] * sin(2*d2) / d` with the unclamped `d` as denominator. -/
def forceTerm (nd : ℕ) (pos : ℕ → ℝ) (k j i : ℕ) : ℝ :=
  -(drRef nd pos k j i * Real.sin (2 * d2Ref nd pos k j) / dRef nd pos k j)

/-- Reference total force on particle `k` in dimension `i`. -/
def forceRef (np nd : ℕ) (pos : ℕ → ℝ) (k i : ℕ) : ℝ :=
  ∑ j ∈ (Finset.range np).erase k, forceTerm nd pos k j i

/-- Reference total potential energy: `0.5 * sin(d2)^2` for every ordered
pair of distinct particles. -/
def potRef (np nd : ℕ) (pos : ℕ → ℝ) : ℝ :=
  ∑ k ∈ Finset.range np, ∑ j ∈ (Finset.range np).erase k,
    0.5 * Real.sin (d2Ref nd pos k j) ^ 2

/-- Reference total kinetic energy: squared velocity components scaled by
`0.5 * mass`. -/
def kinRef (np nd : ℕ) (vel : ℕ → ℝ) (mass : ℝ) : ℝ :=
  0.5 * mass * ∑ k ∈ Finset.range np, ∑ i ∈ Finset.range nd, vel (i + k * nd) ^ 2

/-! ## Bridge lemmas between `compute` and the reference definitions -/

lemma dist_snd_eq_dRef (nd : ℕ) (pos : ℕ → ℝ) (k j : ℕ) :
    (dist nd (fun i => pos (i + k * nd)) (fun i => pos (i + j * nd))).2 = dRef nd pos k j := by
  rw [dist_snd, dRef]
  rfl

lemma d2fun_dist (nd : ℕ) (pos : ℕ → ℝ) (k j : ℕ) :
    d2fun ((dist nd (fun i => pos (i + k * nd)) (fun i => pos (i + j * nd))).2) =
      d2Ref nd pos k j := by
  rw [d2fun_eq_min, dist_snd_eq_dRef, d2Ref]

lemma innerBody_self (nd k : ℕ) (pos : ℕ → ℝ) (fp : (ℕ → ℝ) × ℝ) :
    innerBody nd k pos fp k = fp := by
  rw [innerBody, if_neg (fun h => h rfl)]

lemma innerBody_ne (nd k j : ℕ) (pos : ℕ → ℝ) (fp : (ℕ → ℝ) × ℝ) (h : k ≠ j) :
    innerBody nd k pos fp j =
      ((List.range nd).foldl (fun g i => Function.update g (i + k * nd)
          (g (i + k * nd) - drRef nd pos k j i * Real.sin (2 * d2Ref nd pos k j) /
            dRef nd pos k j)) fp.1,
        fp.2 + 0.5 * Real.sin (d2Ref nd pos k j) ^ 2) := by
  rw [innerBody, if_pos h, d2fun_dist, dist_snd_eq_dRef]
  rfl

lemma outerBody_force (np nd : ℕ) (pos vel : ℕ → ℝ) (st : (ℕ → ℝ) × ℝ × ℝ) (k : ℕ) :
    (outerBody np nd pos vel st k).1 =
      ((List.range np).foldl (innerBody nd k pos)
        ((List.range nd).foldl (fun g i => Function.update g (i + k * nd) 0) st.1,
          st.2.1)).1 := rfl

lemma outerBody_pot (np nd : ℕ) (pos vel : ℕ → ℝ) (st : (ℕ → ℝ) × ℝ × ℝ) (k : ℕ) :
    (outerBody np nd pos vel st k).2.1 =
      ((List.range np).foldl (innerBody nd k pos)
        ((List.range nd).foldl (fun g i => Function.update g (i + k * nd) 0) st.1,
          st.2.1)).2 := rfl

lemma outerBody_kin (np nd : ℕ) (pos vel : ℕ → ℝ) (st : (ℕ → ℝ) × ℝ × ℝ) (k : ℕ) :
    (outerBody np nd pos vel st k).2.2 =
      (List.range nd).foldl (fun s i => s + vel (i + k * nd) * vel (i + k * nd)) st.2.2 := rfl

/-- Characterization of the inner `j` loop of `compute` (over `j < m`),
started from force field `f` and potential accumulator `pe`. -/
lemma innerLoop_spec (nd k : ℕ) (pos : ℕ → ℝ) (m : ℕ) (f : ℕ → ℝ) (pe : ℝ) :
    ((List.range m).foldl (innerBody nd k pos) (f, pe)).2 =
        pe + ∑ j ∈ (Finset.range m).erase k, 0.5 * Real.sin (d2Ref nd pos k j) ^ 2 ∧
      ∀ idx, ((List.range m).foldl (innerBody nd k pos) (f, pe)).1 idx =
        if k * nd ≤ idx ∧ idx < k * nd + nd then
          f idx - ∑ j ∈ (Finset.range m).erase k,
            drRef nd pos k j (idx - k * nd) * Real.sin (2 * d2Ref nd pos k j) /
              dRef nd pos k j
        else f idx := by
  induction m with
  | zero =>
    constructor
    · simp
    · intro idx
      simp
  | succ m ih =>
    rw [List.range_succ, List.foldl_append]
    simp only [List.foldl_cons, List.foldl_nil]
    by_cases hkm : k = m
    · subst hkm
      rw [innerBody_self]
      have h1 : (Finset.range (k + 1)).erase k = Finset.range k := by
        rw [Finset.range_succ, Finset.erase_insert Finset.not_mem_range_self]
      have h2 : (Finset.range k).erase k = Finset.range k :=
        Finset.erase_eq_of_not_mem Finset.not_mem_range_self
      rw [h1]
      rw [h2] at ih
      exact ih
    · rw [innerBody_ne nd k m pos _ hkm]
      have hset : (Finset.range (m + 1)).erase k = insert m ((Finset.range m).erase k) := by
        rw [Finset.range_succ, Finset.erase_insert_of_ne fun h => hkm h.symm]
      have hmem : m ∉ (Finset.range m).erase k :=
        fun h => Finset.not_mem_range_self (Finset.mem_of_mem_erase h)
      constructor
      · show ((List.range m).foldl (innerBody nd k pos) (f, pe)).2 + _ = _
        rw [ih.1, hset, Finset.sum_insert hmem]
        ring
      · intro idx
        have hB := blockFold_apply
          (fun i v => v - drRef nd pos k m i * Real.sin (2 * d2Ref nd pos k m) /
            dRef nd pos k m)
          (k * nd) nd ((List.range m).foldl (innerBody nd k pos) (f, pe)).1 idx
        refine hB.trans ?_
        rw [hset, Finset.sum_insert hmem]
        by_cases hin : k * nd ≤ idx ∧ idx < k * nd + nd
        · rw [if_pos hin, if_pos hin, ih.2 idx, if_pos hin]
          ring
        · rw [if_neg hin, if_neg hin, ih.2 idx, if_neg hin]

/-- Characterization of the outer `k` loop of `compute` (over `k < m`). -/
lemma computeLoop_spec (np nd : ℕ) (pos vel : ℕ → ℝ) (f0 : ℕ → ℝ) (m : ℕ) :
    ((List.range m).foldl (outerBody np nd pos vel) (f0, 0, 0)).2.1 =
        ∑ k ∈ Finset.range m, ∑ j ∈ (Finset.range np).erase k,
          0.5 * Real.sin (d2Ref nd pos k j) ^ 2 ∧
      ((List.range m).foldl (outerBody np nd pos vel) (f0, 0, 0)).2.2 =
        ∑ k ∈ Finset.range m, ∑ i ∈ Finset.range nd, vel (i + k * nd) * vel (i + k * nd) ∧
      ∀ k, k < m → ∀ i, i < nd →
        ((List.range m).foldl (outerBody np nd pos vel) (f0, 0, 0)).1 (i + k * nd) =
          forceRef np nd pos k i := by
  induction m with
  | zero =>
    refine ⟨by simp, by simp, ?_⟩
    intro k hk
    omega
  | succ m ih =>
    rw [List.range_succ, List.foldl_append]
    simp only [List.foldl_cons, List.foldl_nil]
    have hZ := blockFold_apply (fun _ _ => (0 : ℝ)) (m * nd) nd
      ((List.range m).foldl (outerBody np nd pos vel) (f0, 0, 0)).1
    have hIL := innerLoop_spec nd m pos np
      ((List.range nd).foldl (fun g i => Function.update g (i + m * nd) 0)
        ((List.range m).foldl (outerBody np nd pos vel) (f0, 0, 0)).1)
      ((List.range m).foldl (outerBody np nd pos vel) (f0, 0, 0)).2.1
    refine ⟨?_, ?_, ?_⟩
    · rw [outerBody_pot, hIL.1, ih.1, Finset.sum_range_succ]
    · rw [outerBody_kin,
        foldl_add_eq (fun i => vel (i + m * nd) * vel (i + m * nd)) nd, ih.2.1,
        Finset.sum_range_succ]
    · intro k hk i hi
      rw [outerBody_force, hIL.2 (i + k * nd)]
      by_cases hkeq : k = m
      · subst hkeq
        rw [if_pos (by omega), hZ (i + k * nd), if_pos (by omega)]
        have hcancel : i + k * nd - k * nd = i := by omega
        rw [hcancel, zero_sub, ← Finset.sum_neg_distrib]
        rfl
      · have hklt : k < m := by omega
        have hblock : i + k * nd < m * nd := by
          have h1 : i + k * nd < (k + 1) * nd := by
            rw [Nat.succ_mul]
            omega
          have h2 : (k + 1) * nd ≤ m * nd := Nat.mul_le_mul_right nd (by omega)
          omega
        rw [if_neg (by omega), hZ (i + k * nd), if_neg (by omega)]
        exact ih.2.2 k hklt i hi

/-- The potential returned by `compute` is the reference double-loop sum. -/
lemma compute_pot_eq (np nd : ℕ) (pos vel : ℕ → ℝ) (mass : ℝ) (f0 : ℕ → ℝ) :
    (compute np nd pos vel mass f0).2.1 = potRef np nd pos :=
  (computeLoop_spec np nd pos vel f0 np).1

/-- The kinetic energy returned by `compute` is the reference sum. -/
lemma compute_kin_eq (np nd : ℕ) (pos vel : ℕ → ℝ) (mass : ℝ) (f0 : ℕ → ℝ) :
    (compute np nd pos vel mass f0).2.2 = kinRef np nd vel mass := by
  show ((List.range np).foldl (outerBody np nd pos vel) (f0, 0, 0)).2.2 * 0.5 * mass = _
  rw [(computeLoop_spec np nd pos vel f0 np).2.1, kinRef]
  have hsq : ∑ k ∈ Finset.range np, ∑ i ∈ Finset.range nd, vel (i + k * nd) * vel (i + k * nd) =
      ∑ k ∈ Finset.range np, ∑ i ∈ Finset.range nd, vel (i + k * nd) ^ 2 :=
    Finset.sum_congr rfl fun k _ =>
      Finset.sum_congr rfl fun i _ => (pow_two (vel (i + k * nd))).symm
  rw [hsq]
  ring

/-- The force slot `i + k*nd` returned by `compute` is the reference sum of
pairwise contributions. -/
lemma compute_force_eq (np nd : ℕ) (pos vel : ℕ → ℝ) (mass : ℝ) (f0 : ℕ → ℝ)
    (k i : ℕ) (hk : k < np) (hi : i < nd) :
    (compute np nd pos vel mass f0).1 (i + k * nd) = forceRef np nd pos k i :=
  (computeLoop_spec np nd pos vel f0 np).2.2 k hk i hi

/-! ## Claim theorem C1 -/

/-- C1: `compute` matches the unconditional double-loop reference: for every
particle `k` the returned force slot `i + k*nd` is the sum over `j ≠ k` of
`-dr[i] * sin(2*d2) / d` (with `d2 = min(d, PI2)` used only in the
trigonometric factors and the *unclamped* `d` as denominator), the potential
is the sum of `0.5 * sin(d2)^2` over ordered distinct pairs, and the kinetic
energy is the sum of squared velocity components scaled by `0.5 * mass`. -/
theorem claim_C1_evaluate_reference (np nd : ℕ) (pos vel : ℕ → ℝ) (mass : ℝ) (f0 : ℕ → ℝ) :
    (compute np nd pos vel mass f0).2.1 = potRef np nd pos ∧
      (compute np nd pos vel mass f0).2.2 = kinRef np nd vel mass ∧
      ∀ k, k < np → ∀ i, i < nd →
        (compute np nd pos vel mass f0).1 (i + k * nd) = forceRef np nd pos k i :=
  ⟨compute_pot_eq np nd pos vel mass f0, compute_kin_eq np nd pos vel mass f0,
    fun k hk i hi => compute_force_eq np nd pos vel mass f0 k i hk hi⟩

/-- Witness for `claim_C1_evaluate_reference` at `np = 2`, `nd = 1`. -/
theorem claim_C1_evaluate_reference_witness :
    (compute 2 1 (fun n => (n : ℝ)) (fun n => (n : ℝ)) 1 (fun _ => 0)).2.1 =
        potRef 2 1 (fun n => (n : ℝ)) ∧
      (compute 2 1 (fun n => (n : ℝ)) (fun n => (n : ℝ)) 1 (fun _ => 0)).2.2 =
        kinRef 2 1 (fun n => (n : ℝ)) 1 ∧
      (compute 2 1 (fun n => (n : ℝ)) (fun n => (n : ℝ)) 1 (fun _ => 0)).1 (0 + 0 * 1) =
        forceRef 2 1 (fun n => (n : ℝ)) 0 0 :=
  ⟨(claim_C1_evaluate_reference 2 1 (fun n => (n : ℝ)) (fun n => (n : ℝ)) 1 (fun _ => 0)).1,
    (claim_C1_evaluate_reference 2 1 (fun n => (n : ℝ)) (fun n => (n : ℝ)) 1 (fun _ => 0)).2.1,
    (claim_C1_evaluate_reference 2 1 (fun n => (n : ℝ)) (fun n => (n : ℝ)) 1
      (fun _ => 0)).2.2 0 (by norm_num) 0 (by norm_num)⟩

/-! ## Claim theorems C6 and C10 -/

lemma PI2_lt_pi_div_two : PI2 < Real.pi / 2 := by
  have h := Real.pi_gt_d20
  rw [PI2]
  norm_num at h ⊢
  linarith

/-- C6 (counterexample to the claim as stated): two particles in one
dimension at positions 0 and 2 (pairwise distance 2 ≥ π/2) give a total
potential different from `0.5 * P * (P-1) = 1`: the clamp constant `PI2` is
the halved *double approximation* of π, so `sin(PI2)^2 < 1` in exact real
arithmetic. -/
theorem claim_C6_counterexample :
    (∀ k j, k < 2 → j < 2 → k ≠ j →
        Real.pi / 2 ≤ dRef 1 (fun n => if n = 1 then 2 else 0) k j) ∧
      (compute 2 1 (fun n => if n = 1 then 2 else 0) (fun _ => 0) 1 (fun _ => 0)).2.1 ≠
        0.5 * 2 * (2 - 1) := by
  have hd01 : dRef 1 (fun n => if n = 1 then 2 else 0) 0 1 = 2 := by
    rw [dRef, Finset.sum_range_one]
    norm_num [drRef]
    rw [show (4 : ℝ) = 2 ^ 2 by norm_num, Real.sqrt_sq (by norm_num : (0 : ℝ) ≤ 2)]
  have hd10 : dRef 1 (fun n => if n = 1 then 2 else 0) 1 0 = 2 := by
    rw [dRef, Finset.sum_range_one]
    norm_num [drRef]
    rw [show (4 : ℝ) = 2 ^ 2 by norm_num, Real.sqrt_sq (by norm_num : (0 : ℝ) ≤ 2)]
  have hpi4 : Real.pi / 2 ≤ 2 := by
    have := Real.pi_le_four
    linarith
  constructor
  · intro k j hk hj hkj
    interval_cases k <;> interval_cases j <;> simp_all
  · have hPI2le : PI2 ≤ 2 := by
      rw [PI2]
      norm_num
    have hpot : (compute 2 1 (fun n => if n = 1 then 2 else 0) (fun _ => 0) 1
        (fun _ => 0)).2.1 = Real.sin PI2 ^ 2 := by
      rw [compute_pot_eq, potRef]
      have he0 : (Finset.range 2).erase 0 = {1} := by decide
      have he1 : (Finset.range 2).erase 1 = {0} := by decide
      rw [Finset.sum_range_succ, Finset.sum_range_one, he0, he1,
        Finset.sum_singleton, Finset.sum_singleton, d2Ref, d2Ref, hd01, hd10,
        min_eq_right hPI2le]
      ring
    have hP0 : 0 < PI2 := by
      rw [PI2]
      norm_num
    have hcos : 0 < Real.cos PI2 := by
      refine Real.cos_pos_of_mem_Ioo ⟨?_, PI2_lt_pi_div_two⟩
      have hpos := Real.pi_pos
      nlinarith
    have hsc := Real.sin_sq_add_cos_sq PI2
    rw [hpot]
    intro heq
    norm_num at heq
    rcases heq with heq | heq <;> nlinarith

/-- C6 (amended): for `P ≥ 1` particles whose pairwise distances are all
`≥ π/2`, the total potential equals `0.5 * P * (P-1) * sin(PI2)^2`, where
`PI2 = 3.141592653589793 / 2` is the program's clamp constant (every pair
saturates to the clamp; the value differs from `0.5 * P * (P-1)` only
because `sin(PI2) ≠ 1` exactly, though the two coincide in double
precision). -/
theorem claim_C6_saturated_potential (np nd : ℕ) (pos vel : ℕ → ℝ) (mass : ℝ)
    (f0 : ℕ → ℝ) (hP : 1 ≤ np)
    (hdist : ∀ k j, k < np → j < np → k ≠ j → Real.pi / 2 ≤ dRef nd pos k j) :
    (compute np nd pos vel mass f0).2.1 =
      0.5 * (np : ℝ) * ((np : ℝ) - 1) * Real.sin PI2 ^ 2 := by
  rw [compute_pot_eq, potRef]
  have hterm : ∀ k ∈ Finset.range np,
      ∑ j ∈ (Finset.range np).erase k, 0.5 * Real.sin (d2Ref nd pos k j) ^ 2 =
        ((np - 1 : ℕ) : ℝ) * (0.5 * Real.sin PI2 ^ 2) := by
    intro k hk
    have hconst : ∀ j ∈ (Finset.range np).erase k,
        0.5 * Real.sin (d2Ref nd pos k j) ^ 2 = 0.5 * Real.sin PI2 ^ 2 := by
      intro j hj
      have hjk : j ≠ k := Finset.ne_of_mem_erase hj
      have hjr := Finset.mem_range.mp (Finset.mem_of_mem_erase hj)
      have hd := hdist k j (Finset.mem_range.mp hk) hjr fun h => hjk h.symm
      rw [d2Ref, min_eq_right (le_trans PI2_lt_pi_div_two.le hd)]
    rw [Finset.sum_congr rfl hconst, Finset.sum_const, Finset.card_erase_of_mem hk,
      Finset.card_range, nsmul_eq_mul]
  rw [Finset.sum_congr rfl hterm, Finset.sum_const, Finset.card_range, nsmul_eq_mul,
    Nat.cast_sub hP, Nat.cast_one]
  ring

/-- Witness for `claim_C6_saturated_potential`: the two-particle
configuration of the counterexample satisfies the hypotheses. -/
theorem claim_C6_saturated_potential_witness :
    1 ≤ 2 ∧
      (compute 2 1 (fun n => if n = 1 then 2 else 0) (fun _ => 0) 1 (fun _ => 0)).2.1 =
        0.5 * (2 : ℝ) * ((2 : ℝ) - 1) * Real.sin PI2 ^ 2 := by
  have hd01 : dRef 1 (fun n => if n = 1 then 2 else 0) 0 1 = 2 := by
    rw [dRef, Finset.sum_range_one]
    norm_num [drRef]
    rw [show (4 : ℝ) = 2 ^ 2 by norm_num, Real.sqrt_sq (by norm_num : (0 : ℝ) ≤ 2)]
  have hd10 : dRef 1 (fun n => if n = 1 then 2 else 0) 1 0 = 2 := by
    rw [dRef, Finset.sum_range_one]
    norm_num [drRef]
    rw [show (4 : ℝ) = 2 ^ 2 by norm_num, Real.sqrt_sq (by norm_num : (0 : ℝ) ≤ 2)]
  have hpi4 : Real.pi / 2 ≤ 2 := by
    have := Real.pi_le_four
    linarith
  refine ⟨by norm_num, ?_⟩
  refine claim_C6_saturated_potential 2 1 _ _ 1 _ (by norm_num) ?_
  intro k j hk hj hkj
  interval_cases k <;> interval_cases j <;> simp_all

/-- C10: Newton's third law holds exactly for the pairwise contributions of
the evaluator: the per-dimension contribution of particle `j` on particle
`k` is the negation of that of `k` on `j` (the displacement flips sign while
distance, clamp and force-law factor are symmetric); and the force slot
returned by `compute` is exactly the sum of these contributions. -/
theorem claim_C10_newton_third (nd : ℕ) (pos : ℕ → ℝ) (k j i : ℕ) (_hkj : k ≠ j) :
    forceTerm nd pos k j i = -forceTerm nd pos j k i ∧
      ∀ np vel mass f0, k < np → i < nd →
        (compute np nd pos vel mass f0).1 (i + k * nd) =
          ∑ j ∈ (Finset.range np).erase k, forceTerm nd pos k j i := by
  constructor
  · have hd : dRef nd pos k j = dRef nd pos j k := by
      rw [dRef, dRef]
      congr 1
      exact Finset.sum_congr rfl fun i _ => by rw [drRef, drRef]; ring
    have hd2 : d2Ref nd pos k j = d2Ref nd pos j k := by
      rw [d2Ref, d2Ref, hd]
    rw [forceTerm, forceTerm, hd, hd2, drRef, drRef]
    ring
  · intro np vel mass f0 hk hi
    rw [compute_force_eq np nd pos vel mass f0 k i hk hi, forceRef]

/-- Witness for `claim_C10_newton_third` at a concrete two-particle
configuration. -/
theorem claim_C10_newton_third_witness :
    forceTerm 1 (fun n => (n : ℝ)) 0 1 0 = -forceTerm 1 (fun n => (n : ℝ)) 1 0 0 ∧
      (compute 2 1 (fun n => (n : ℝ)) (fun _ => 0) 1 (fun _ => 0)).1 (0 + 0 * 1) =
        ∑ j ∈ (Finset.range 2).erase 0, forceTerm 1 (fun n => (n : ℝ)) 0 j 0 :=
  ⟨(claim_C10_newton_third 1 (fun n => (n : ℝ)) 0 1 0 (by norm_num)).1,
    (claim_C10_newton_third 1 (fun n => (n : ℝ)) 0 1 0 (by norm_num)).2 2 (fun _ => 0) 1
      (fun _ => 0) (by norm_num) (by norm_num)⟩

/-! ## Time integrator: `update` -/

/-- The three fields mutated in place by `update`. -/
structure State3 where
  pos : ℕ → ℝ
  vel : ℕ → ℝ
  acc : ℕ → ℝ

/-- One slot of `update`'s loop body, in source order:
`pos[i+j*nd] = pos[i+j*nd] + vel[i+j*nd]*dt + 0.5*acc[i+j*nd]*dt*dt;`
`vel[i+j*nd] = vel[i+j*nd] + 0.5*dt*( f[i+j*nd]*rmass + acc[i+j*nd] );`
`acc[i+j*nd] = f[i+j*nd]*rmass;`
— the acceleration slot is read (twice) before being overwritten. -/
def updateSlot (f : ℕ → ℝ) (rmass dt : ℝ) (st : State3) (idx : ℕ) : State3 :=
  let st1 : State3 := { st with
    pos := Function.update st.pos idx
      (st.pos idx + st.vel idx * dt + 0.5 * st.acc idx * dt * dt) }
  let st2 : State3 := { st1 with
    vel := Function.update st1.vel idx
      (st1.vel idx + 0.5 * dt * (f idx * rmass + st1.acc idx)) }
  { st2 with acc := Function.update st2.acc idx (f idx * rmass) }

/-- `update ( int np, int nd, double pos[], double vel[], double f[],
double acc[], double mass, double dt )`: `rmass = 1.0 / mass`, then the
double loop over all slots. -/
def update (np nd : ℕ) (pos vel f acc : ℕ → ℝ) (mass dt : ℝ) : State3 :=
  (List.range np).foldl (fun st j =>
    (List.range nd).foldl (fun st i => updateSlot f (1 / mass) dt st (i + j * nd)) st)
    ⟨pos, vel, acc⟩

lemma updateSlot_pos (f : ℕ → ℝ) (rmass dt : ℝ) (st : State3) (idx : ℕ) :
    (updateSlot f rmass dt st idx).pos = Function.update st.pos idx
      (st.pos idx + st.vel idx * dt + 0.5 * st.acc idx * dt * dt) := rfl

lemma updateSlot_vel (f : ℕ → ℝ) (rmass dt : ℝ) (st : State3) (idx : ℕ) :
    (updateSlot f rmass dt st idx).vel = Function.update st.vel idx
      (st.vel idx + 0.5 * dt * (f idx * rmass + st.acc idx)) := rfl

lemma updateSlot_acc (f : ℕ → ℝ) (rmass dt : ℝ) (st : State3) (idx : ℕ) :
    (updateSlot f rmass dt st idx).acc = Function.update st.acc idx (f idx * rmass) := rfl

/-- Characterization of the flattened integrator loop over the first `t`
slots: every processed slot carries the velocity-Verlet update computed from
the *input* values at that slot alone (no cross-slot dependency), with the
old acceleration in the position and velocity updates. -/
lemma updateFold_spec (f : ℕ → ℝ) (rmass dt : ℝ) (t : ℕ) (st0 : State3) (idx : ℕ) :
    (((List.range t).foldl (updateSlot f rmass dt) st0).pos idx =
        if idx < t then st0.pos idx + st0.vel idx * dt + 0.5 * st0.acc idx * dt * dt
        else st0.pos idx) ∧
      (((List.range t).foldl (updateSlot f rmass dt) st0).vel idx =
        if idx < t then st0.vel idx + 0.5 * dt * (f idx * rmass + st0.acc idx)
        else st0.vel idx) ∧
      (((List.range t).foldl (updateSlot f rmass dt) st0).acc idx =
        if idx < t then f idx * rmass else st0.acc idx) := by
  induction t generalizing idx with
  | zero =>
    refine ⟨?_, ?_, ?_⟩ <;> rw [if_neg (by omega)] <;> rfl
  | succ t ih =>
    rw [List.range_succ, List.foldl_append]
    simp only [List.foldl_cons, List.foldl_nil]
    rw [updateSlot_pos, updateSlot_vel, updateSlot_acc]
    refine ⟨?_, ?_, ?_⟩ <;> rw [Function.update_apply] <;> by_cases hidx : idx = t
    · rw [if_pos hidx, (ih t).1, (ih t).2.1, (ih t).2.2, if_neg (by omega),
        if_neg (by omega), if_neg (by omega), hidx, if_pos (by omega)]
    · rw [if_neg hidx, (ih idx).1]
      by_cases hlt : idx < t
      · rw [if_pos hlt, if_pos (by omega)]
      · rw [if_neg hlt, if_neg (by omega)]
    · rw [if_pos hidx, (ih t).2.1, (ih t).2.2, if_neg (by omega), if_neg (by omega),
        hidx, if_pos (by omega)]
    · rw [if_neg hidx, (ih idx).2.1]
      by_cases hlt : idx < t
      · rw [if_pos hlt, if_pos (by omega)]
      · rw [if_neg hlt, if_neg (by omega)]
    · rw [if_pos hidx, hidx, if_pos (by omega)]
    · rw [if_neg hidx, (ih idx).2.2]
      by_cases hlt : idx < t
      · rw [if_pos hlt, if_pos (by omega)]
      · rw [if_neg hlt, if_neg (by omega)]

/-! ## Claim theorem C2 -/

/-- C2: for every slot `(j, i)`, one call of `update` performs exactly, in
source order and using the old acceleration in the first two assignments,
`pos += vel*dt + 0.5*acc*dt²`, `vel += 0.5*dt*(f/mass + acc)`,
`acc = f/mass`; the result at a slot depends only on the input values at
that same slot. -/
theorem claim_C2_velocity_verlet (np nd : ℕ) (pos vel f acc : ℕ → ℝ) (mass dt : ℝ)
    (j i : ℕ) (hj : j < np) (hi : i < nd) :
    (update np nd pos vel f acc mass dt).pos (i + j * nd) =
        pos (i + j * nd) + vel (i + j * nd) * dt + 0.5 * acc (i + j * nd) * dt * dt ∧
      (update np nd pos vel f acc mass dt).vel (i + j * nd) =
        vel (i + j * nd) + 0.5 * dt * (f (i + j * nd) * (1 / mass) + acc (i + j * nd)) ∧
      (update np nd pos vel f acc mass dt).acc (i + j * nd) = f (i + j * nd) * (1 / mass) := by
  have hu : update np nd pos vel f acc mass dt =
      (List.range (np * nd)).foldl (updateSlot f (1 / mass) dt) ⟨pos, vel, acc⟩ := by
    rw [update]
    exact double_fold_flatten (updateSlot f (1 / mass) dt) np nd ⟨pos, vel, acc⟩
  have hbound : i + j * nd < np * nd := by
    have h1 : i + j * nd < (j + 1) * nd := by
      rw [Nat.succ_mul]
      omega
    have h2 : (j + 1) * nd ≤ np * nd := Nat.mul_le_mul_right nd (by omega)
    omega
  have hs := updateFold_spec f (1 / mass) dt (np * nd) ⟨pos, vel, acc⟩ (i + j * nd)
  rw [if_pos hbound, if_pos hbound, if_pos hbound] at hs
  rw [hu]
  exact hs

/-- Witness for `claim_C2_velocity_verlet` at a concrete one-slot state. -/
theorem claim_C2_velocity_verlet_witness :
    (update 1 1 (fun _ => 3) (fun _ => 5) (fun _ => 7) (fun _ => 11) 2 1).pos (0 + 0 * 1) =
        3 + 5 * 1 + 0.5 * 11 * 1 * 1 ∧
      (update 1 1 (fun _ => 3) (fun _ => 5) (fun _ => 7) (fun _ => 11) 2 1).vel (0 + 0 * 1) =
        5 + 0.5 * 1 * (7 * (1 / 2) + 11) ∧
      (update 1 1 (fun _ => 3) (fun _ => 5) (fun _ => 7) (fun _ => 11) 2 1).acc (0 + 0 * 1) =
        7 * (1 / 2) :=
  claim_C2_velocity_verlet 1 1 (fun _ => 3) (fun _ => 5) (fun _ => 7) (fun _ => 11) 2 1
    0 0 (by norm_num) (by norm_num)

/-! ## State initializer: `initialize` -/

/-- `initialize ( int np, int nd, double pos[], double vel[], double acc[] )`:
`seed = 123456789; r8mat_uniform_ab ( nd, np, 0.0, 10.0, &seed, pos );` then
zero loops for `vel` and `acc`.  The incoming buffer contents are the three
arguments; the generator's error branch is unreachable here because the
fixed seed is nonzero. -/
def initializeFields (np nd : ℕ) (pos0 vel0 acc0 : ℕ → ℝ) :
    (ℕ → ℝ) × (ℕ → ℝ) × (ℕ → ℝ) :=
  (match r8mat_uniform_ab nd np 0 10 123456789 pos0 with
    | Except.ok st => st.1
    | Except.error _ => pos0,
    (List.range np).foldl (fun g j =>
      (List.range nd).foldl (fun g i => Function.update g (i + j * nd) 0) g) vel0,
    (List.range np).foldl (fun g j =>
      (List.range nd).foldl (fun g i => Function.update g (i + j * nd) 0) g) acc0)

/-! ## Simulation driver: `main` -/

/-- The driver's full mutable state: the four fields and the two energy
scalars. -/
structure MDState where
  pos : ℕ → ℝ
  vel : ℕ → ℝ
  acc : ℕ → ℝ
  force : ℕ → ℝ
  pot : ℝ
  kin : ℝ

/-- The `initialize ( np, nd, pos, vel, acc )` call of the driver loop. -/
def initPhase (np nd : ℕ) (st : MDState) : MDState :=
  { st with
    pos := (initializeFields np nd st.pos st.vel st.acc).1
    vel := (initializeFields np nd st.pos st.vel st.acc).2.1
    acc := (initializeFields np nd st.pos st.vel st.acc).2.2 }

/-- The `update ( np, nd, pos, vel, force, acc, mass, dt )` call of the
driver loop. -/
def updPhase (np nd : ℕ) (mass dt : ℝ) (st : MDState) : MDState :=
  { st with
    pos := (update np nd st.pos st.vel st.force st.acc mass dt).pos
    vel := (update np nd st.pos st.vel st.force st.acc mass dt).vel
    acc := (update np nd st.pos st.vel st.force st.acc mass dt).acc }

/-- The `compute ( np, nd, pos, vel, mass, force, &potential, &kinetic )`
call of the driver loop. -/
def evalPhase (np nd : ℕ) (mass : ℝ) (st : MDState) : MDState :=
  { st with
    force := (compute np nd st.pos st.vel mass st.force).1
    pot := (compute np nd st.pos st.vel mass st.force).2.1
    kin := (compute np nd st.pos st.vel mass st.force).2.2 }

/-- One iteration of the driver loop at step index `step`:
`if ( step == 0 ) initialize(...); else update(...);` then `compute(...)`. -/
def mdStep (np nd : ℕ) (mass dt : ℝ) (step : ℕ) (st : MDState) : MDState :=
  evalPhase np nd mass (if step = 0 then initPhase np nd st else updPhase np nd mass dt st)

/-- The driver loop `for ( step = 0; step <= step_num; step++ )`, threading
the state and the reference energy `e0` (recorded when `step == 0`; the
uninitialized C variable is seeded with `0`, which the first iteration
always overwrites). -/
def mdLoop (np nd : ℕ) (mass dt : ℝ) (stepNum : ℕ) (st0 : MDState) : MDState × ℝ :=
  (List.range (stepNum + 1)).foldl (fun s step =>
    (mdStep np nd mass dt step s.1,
      if step = 0 then
        (mdStep np nd mass dt step s.1).pot + (mdStep np nd mass dt step s.1).kin
      else s.2))
    (st0, 0)

/-- The driver's observable output:
`printf("potential=%f, kinetic=%f, %f\n", potential, kinetic,
(potential+kinetic-e0)/e0);` — final potential, final kinetic, and relative
energy drift. -/
def mdMain (np nd : ℕ) (mass dt : ℝ) (stepNum : ℕ) (st0 : MDState) : ℝ × ℝ × ℝ :=
  ((mdLoop np nd mass dt stepNum st0).1.pot,
    (mdLoop np nd mass dt stepNum st0).1.kin,
    ((mdLoop np nd mass dt stepNum st0).1.pot + (mdLoop np nd mass dt stepNum st0).1.kin -
      (mdLoop np nd mass dt stepNum st0).2) / (mdLoop np nd mass dt stepNum st0).2)

/-- Reference (spec-worded) transition system for the driver: at step 0,
Initializer then Evaluator; at step `s+1`, Integrator on the state of step
`s` (consuming the forces computed at step `s`) then Evaluator. -/
def specSim (np nd : ℕ) (mass dt : ℝ) (st0 : MDState) : ℕ → MDState
  | 0 => evalPhase np nd mass (initPhase np nd st0)
  | s + 1 => evalPhase np nd mass (updPhase np nd mass dt (specSim np nd mass dt st0 s))

/-- The driver loop after steps `0..N` is exactly the reference transition
system at step `N`, with `e0` the step-0 total energy. -/
lemma mdLoop_spec (np nd : ℕ) (mass dt : ℝ) (st0 : MDState) (N : ℕ) :
    mdLoop np nd mass dt N st0 =
      (specSim np nd mass dt st0 N,
        (specSim np nd mass dt st0 0).pot + (specSim np nd mass dt st0 0).kin) := by
  induction N with
  | zero => rfl
  | succ N ih =>
    rw [mdLoop, List.range_succ, List.foldl_append]
    have hfold : (List.range (N + 1)).foldl (fun s step =>
        (mdStep np nd mass dt step s.1,
          if step = 0 then
            (mdStep np nd mass dt step s.1).pot + (mdStep np nd mass dt step s.1).kin
          else s.2)) (st0, 0) = mdLoop np nd mass dt N st0 := rfl
    rw [hfold, ih]
    simp only [List.foldl_cons, List.foldl_nil]
    rw [if_neg (by omega)]
    have hstep : mdStep np nd mass dt (N + 1) (specSim np nd mass dt st0 N) =
        specSim np nd mass dt st0 (N + 1) := by
      rw [mdStep, if_neg (by omega), specSim]
    rw [hstep]

/-! ## Claim theorem C3 -/

/-- C3: for every step count `N ≥ 0` the driver executes exactly the `N+1`
iterations `step = 0..N`: at step 0 the Initializer then the Evaluator run
and `e0 = potential + kinetic` is recorded; at each later step the
Integrator runs on the previous step's forces, followed by the Evaluator on
the new positions; after step `N` the reported triple is the final
potential, the final kinetic, and the relative drift
`(potential + kinetic - e0) / e0`. -/
theorem claim_C3_driver (np nd : ℕ) (mass dt : ℝ) (N : ℕ) (st0 : MDState) :
    mdMain np nd mass dt N st0 =
      ((specSim np nd mass dt st0 N).pot, (specSim np nd mass dt st0 N).kin,
        ((specSim np nd mass dt st0 N).pot + (specSim np nd mass dt st0 N).kin -
            ((specSim np nd mass dt st0 0).pot + (specSim np nd mass dt st0 0).kin)) /
          ((specSim np nd mass dt st0 0).pot + (specSim np nd mass dt st0 0).kin)) := by
  rw [mdMain, mdLoop_spec np nd mass dt st0 N]

end

end MD
